/-
  Verification of the 3D SU(2) lattice Yang-Mills simulation and analysis
  pipeline (latticeYM3d-simulation.py, latticeYM3d-analysis.py).

  The numerical code works on numpy arrays of 2x2 complex matrices.  The
  shallow embedding below models floating point arithmetic by exact real
  and complex arithmetic: a float becomes a real number, a 2x2 complex
  array becomes `Matrix (Fin 2) (Fin 2) ℂ`, an array indexed by lattice
  sites becomes a function from sites, and every numpy vectorised
  operation becomes the corresponding pointwise operation.  Randomness is
  modelled by passing the uniform draws consumed by the code as explicit
  function arguments.  External fallible library calls (scipy solvers and
  optimizers) are modelled as `Option`-valued parameters: `none` stands
  for an exception / NaN result of the library call, mirroring the
  try/except structure of the analysis script.
-/
import Mathlib

open scoped Classical
open Matrix

namespace LatticeYM

/-- The type of 2x2 complex matrices used for SU(2) link variables. -/
abbrev M2 : Type := Matrix (Fin 2) (Fin 2) ℂ

/-- Membership in SU(2): unitary with determinant one.  This is the link
invariant stated by the spec (`U†U = I` and `det U = 1`), with the numeric
tolerance idealised to exact equality as appropriate for the exact
arithmetic embedding. -/
def IsSU2 (U : M2) : Prop := Uᴴ * U = 1 ∧ U.det = 1

lemma IsSU2_one : IsSU2 (1 : M2) := by
  constructor
  · simp
  · simp

lemma IsSU2.mul {A B : M2} (hA : IsSU2 A) (hB : IsSU2 B) : IsSU2 (A * B) := by
  obtain ⟨hA1, hA2⟩ := hA
  obtain ⟨hB1, hB2⟩ := hB
  constructor
  · calc (A * B)ᴴ * (A * B) = Bᴴ * (Aᴴ * A) * B := by
          rw [Matrix.conjTranspose_mul]; simp [mul_assoc]
    _ = 1 := by rw [hA1]; rw [mul_one, hB1]
  · rw [Matrix.det_mul, hA2, hB2, one_mul]

/-- The 2x2 complex matrix associated to the quaternion
`(a0, a1, a2, a3)`, exactly as assembled entrywise in
`random_SU2_updates` (`U[...,0,0] = a0 + i a3`, `U[...,0,1] = a2 + i a1`,
`U[...,1,0] = -a2 + i a1`, `U[...,1,1] = a0 - i a3`). -/
def quatMat (a0 a1 a2 a3 : ℝ) : M2 :=
  !![(a0 : ℂ) + a3 * Complex.I, (a2 : ℂ) + a1 * Complex.I;
     (-a2 : ℂ) + a1 * Complex.I, (a0 : ℂ) - a3 * Complex.I]

lemma det_quatMat (a0 a1 a2 a3 : ℝ) :
    (quatMat a0 a1 a2 a3).det = ((a0 ^ 2 + a1 ^ 2 + a2 ^ 2 + a3 ^ 2 : ℝ) : ℂ) := by
  rw [quatMat, Matrix.det_fin_two_of]
  simp only [Complex.ext_iff, Complex.add_re, Complex.add_im, Complex.sub_re, Complex.sub_im,
    Complex.mul_re, Complex.mul_im, Complex.ofReal_re, Complex.ofReal_im, Complex.I_re,
    Complex.I_im, Complex.neg_re, Complex.neg_im, Complex.ofReal_neg]
  constructor <;> ring

lemma conjTranspose_quatMat (a0 a1 a2 a3 : ℝ) :
    (quatMat a0 a1 a2 a3)ᴴ = quatMat a0 (-a1) (-a2) (-a3) := by
  ext i j
  fin_cases i <;> fin_cases j <;>
    simp [quatMat, Matrix.conjTranspose_apply, Complex.ext_iff]

lemma IsSU2_quatMat {a0 a1 a2 a3 : ℝ} (h : a0 ^ 2 + a1 ^ 2 + a2 ^ 2 + a3 ^ 2 = 1) :
    IsSU2 (quatMat a0 a1 a2 a3) := by
  constructor
  · ext i j
    fin_cases i <;> fin_cases j <;>
      · simp only [quatMat, Matrix.mul_apply, Fin.sum_univ_two, Matrix.conjTranspose_apply,
          Matrix.cons_val', Matrix.cons_val_zero, Matrix.cons_val_one, Matrix.head_cons,
          Matrix.head_fin_const, Matrix.one_apply, Matrix.cons_val_fin_one, Fin.zero_eta,
          Fin.mk_one]
        simp only [Complex.ext_iff, Complex.add_re, Complex.add_im, Complex.mul_re,
          Complex.mul_im, Complex.ofReal_re, Complex.ofReal_im, Complex.I_re, Complex.I_im,
          Complex.sub_re, Complex.sub_im, Complex.neg_re, Complex.neg_im, Complex.conj_re,
          Complex.conj_im, RingHom.coe_coe, Complex.ofReal_neg, Complex.one_re, Complex.one_im,
          Complex.zero_re, Complex.zero_im, if_true, if_false, Fin.one_eq_zero_iff,
          Fin.zero_eq_one_iff]
        norm_num
        constructor <;> nlinarith [h]
  · rw [det_quatMat, h]; norm_num

/-- Embedding of `project_SU2`: `det = np.linalg.det(m); scale = 1/np.sqrt(det);
return m * scale`.  The complex square root is the principal branch, i.e. the
complex power `det ^ (1/2)`. -/
noncomputable def project_SU2 (m : M2) : M2 := (m.det ^ ((1 : ℂ) / 2))⁻¹ • m

lemma smul_quatMat (c a0 a1 a2 a3 : ℝ) :
    ((c : ℂ)) • quatMat a0 a1 a2 a3 = quatMat (c * a0) (c * a1) (c * a2) (c * a3) := by
  ext i j
  fin_cases i <;> fin_cases j <;>
    simp [quatMat, Matrix.smul_apply, smul_eq_mul, Complex.ext_iff, Complex.add_re,
      Complex.add_im, Complex.sub_re, Complex.sub_im, Complex.mul_re, Complex.mul_im]

lemma cpow_half_ofReal {Q : ℝ} (hQ : 0 ≤ Q) :
    ((Q : ℂ)) ^ ((1 : ℂ) / 2) = ((Real.sqrt Q : ℝ) : ℂ) := by
  have h1 : ((1 : ℂ) / 2) = (((1 / 2 : ℝ) : ℝ) : ℂ) := by norm_num
  rw [h1, ← Complex.ofReal_cpow hQ, Real.sqrt_eq_rpow]

/-- Claim C3 (amended): for every matrix in the real span of the SU(2)
quaternion parametrization (which is exactly the shape of matrix the smearing
step feeds to the projector) with nonzero determinant, `project_SU2` returns a
matrix that is exactly in SU(2). -/
theorem claim_C3_theorem (a0 a1 a2 a3 : ℝ) (h : a0 ^ 2 + a1 ^ 2 + a2 ^ 2 + a3 ^ 2 ≠ 0) :
    IsSU2 (project_SU2 (quatMat a0 a1 a2 a3)) := by
  have hQ0 : (0 : ℝ) ≤ a0 ^ 2 + a1 ^ 2 + a2 ^ 2 + a3 ^ 2 := by positivity
  have hQpos : (0 : ℝ) < a0 ^ 2 + a1 ^ 2 + a2 ^ 2 + a3 ^ 2 := lt_of_le_of_ne hQ0 (Ne.symm h)
  have hsq : Real.sqrt (a0 ^ 2 + a1 ^ 2 + a2 ^ 2 + a3 ^ 2) ^ 2
      = a0 ^ 2 + a1 ^ 2 + a2 ^ 2 + a3 ^ 2 := Real.sq_sqrt hQ0
  have hs : Real.sqrt (a0 ^ 2 + a1 ^ 2 + a2 ^ 2 + a3 ^ 2) ≠ 0 := by
    have := Real.sqrt_pos.mpr hQpos; linarith
  rw [project_SU2, det_quatMat, cpow_half_ofReal hQ0, ← Complex.ofReal_inv, smul_quatMat]
  apply IsSU2_quatMat
  field_simp

/-- Witness for the amended theorem of claim C3 at the concrete quaternion-form
input `quatMat 1 0 0 0` (the identity matrix). -/
theorem claim_C3_witness : IsSU2 (project_SU2 (quatMat 1 0 0 0)) :=
  claim_C3_theorem 1 0 0 0 (by norm_num)

/-- Concrete non-quaternion-form input for claim C3: `diag(2, 1/2)` has
determinant one, so `project_SU2` returns it unchanged, yet it is far from
unitary. -/
noncomputable def mDiag : M2 := !![(2 : ℂ), 0; 0, (1 / 2 : ℂ)]

/-- Claim C3 counterexample: the input `diag(2, 1/2)` has determinant 1 (not
approximately zero), yet the matrix returned by `project_SU2` fails
`U†U = I` (its (0,0) entry is 4, off by 3 — beyond any sensible tolerance),
refuting the claim for arbitrary 2x2 complex inputs. -/
theorem claim_C3_counterexample :
    mDiag.det ≠ 0 ∧ ¬ IsSU2 (project_SU2 mDiag) := by
  have hdet : mDiag.det = 1 := by
    rw [mDiag, Matrix.det_fin_two_of]; norm_num
  have hproj : project_SU2 mDiag = mDiag := by
    rw [project_SU2, hdet, Complex.one_cpow, inv_one, one_smul]
  refine ⟨by rw [hdet]; norm_num, ?_⟩
  rw [hproj]
  rintro ⟨hu, -⟩
  have h00 : (mDiagᴴ * mDiag) 0 0 = (1 : M2) 0 0 := by rw [hu]
  simp [mDiag, Matrix.mul_apply, Fin.sum_univ_two, Matrix.conjTranspose_apply,
    Matrix.one_apply, Complex.ext_iff] at h00
  norm_num at h00

/-- Claim C7 (amended): `project_SU2` contains no determinant check at all.
On an input with determinant zero it does not abort: it returns the junk
value produced by scaling with `1/sqrt 0` (in the exact-arithmetic embedding,
the zero matrix), which is not in SU(2) and silently propagates. -/
theorem claim_C7_theorem (m : M2) (h : m.det = 0) :
    project_SU2 m = 0 ∧ ¬ IsSU2 (project_SU2 m) := by
  have hz : project_SU2 m = 0 := by
    rw [project_SU2, h, Complex.zero_cpow (by norm_num : ((1 : ℂ) / 2) ≠ 0)]
    simp
  refine ⟨hz, ?_⟩
  rw [hz]
  rintro ⟨-, hd⟩
  rw [Matrix.det_zero (by infer_instance)] at hd
  exact zero_ne_one hd

/-- Claim C7 counterexample: at the concrete all-zero input (determinant
zero) the code does not abort — `project_SU2` is total and returns the
(invalid, non-SU(2)) zero matrix, which then propagates. -/
theorem claim_C7_counterexample :
    (0 : M2).det = 0 ∧ project_SU2 (0 : M2) = 0 ∧ ¬ IsSU2 (project_SU2 (0 : M2)) := by
  have h0 : (0 : M2).det = 0 := Matrix.det_zero (by infer_instance)
  obtain ⟨h1, h2⟩ := claim_C7_theorem 0 h0
  exact ⟨h0, h1, h2⟩

/-- Witness for the amended theorem of claim C7: instantiated at the zero matrix. -/
theorem claim_C7_witness : project_SU2 (0 : M2) = 0 ∧ ¬ IsSU2 (project_SU2 (0 : M2)) :=
  claim_C7_theorem 0 (Matrix.det_zero (by infer_instance))

/-- Embedding of `np.sign`. -/
noncomputable def sgn (x : ℝ) : ℝ := if 0 < x then 1 else if x < 0 then -1 else 0

/-- The quaternion built from one uniform draw `u : Fin 4 → ℝ` before
normalization, following `random_SU2_updates`:
`r[0] = sign(r[0]) * sqrt(1 - eps^2)` and `r[1:] *= eps`. -/
noncomputable def rawQuat (eps : ℝ) (u : Fin 4 → ℝ) : Fin 4 → ℝ :=
  fun i => if i = 0 then sgn (u 0) * Real.sqrt (1 - eps ^ 2) else eps * u i

/-- Euclidean norm over the quaternion components (`np.linalg.norm` along the
last axis). -/
noncomputable def quatNorm (q : Fin 4 → ℝ) : ℝ :=
  Real.sqrt (q 0 ^ 2 + q 1 ^ 2 + q 2 ^ 2 + q 3 ^ 2)

/-- The normalized quaternion `r / norm`. -/
noncomputable def normQuat (eps : ℝ) (u : Fin 4 → ℝ) : Fin 4 → ℝ :=
  fun i => rawQuat eps u i / quatNorm (rawQuat eps u)

/-- One candidate SU(2) update matrix of `random_SU2_updates`, as a function
of the step size `eps` and of the four uniform draws in `[-1/2, 1/2]`
consumed for this link. -/
noncomputable def random_SU2_update (eps : ℝ) (u : Fin 4 → ℝ) : M2 :=
  quatMat (normQuat eps u 0) (normQuat eps u 1) (normQuat eps u 2) (normQuat eps u 3)

lemma sgn_sq {x : ℝ} (h : x ≠ 0) : sgn x ^ 2 = 1 := by
  rcases lt_or_gt_of_ne h with hlt | hgt
  · rw [sgn, if_neg (by linarith), if_pos hlt]; norm_num
  · rw [sgn, if_pos hgt]; norm_num

/-- Squared norm of the raw quaternion, when the first draw is nonzero. -/
lemma rawQuat_normSq (eps : ℝ) (u : Fin 4 → ℝ) (hu : u 0 ≠ 0) (heps : eps ^ 2 ≤ 1) :
    rawQuat eps u 0 ^ 2 + rawQuat eps u 1 ^ 2 + rawQuat eps u 2 ^ 2 + rawQuat eps u 3 ^ 2
      = (1 - eps ^ 2) + eps ^ 2 * (u 1 ^ 2 + u 2 ^ 2 + u 3 ^ 2) := by
  have h0 : rawQuat eps u 0 ^ 2 = 1 - eps ^ 2 := by
    rw [rawQuat, if_pos rfl, mul_pow, sgn_sq hu, one_mul,
      Real.sq_sqrt (by linarith : (0 : ℝ) ≤ 1 - eps ^ 2)]
  have hi : ∀ i : Fin 4, i ≠ 0 → rawQuat eps u i = eps * u i := by
    intro i hne
    rw [rawQuat, if_neg hne]
  rw [h0, hi 1 (by decide), hi 2 (by decide), hi 3 (by decide)]
  ring

lemma rawQuat_normSq_pos (eps : ℝ) (u : Fin 4 → ℝ) (hu : u 0 ≠ 0) (heps : eps ^ 2 < 1) :
    0 < rawQuat eps u 0 ^ 2 + rawQuat eps u 1 ^ 2 + rawQuat eps u 2 ^ 2 + rawQuat eps u 3 ^ 2 := by
  rw [rawQuat_normSq eps u hu (le_of_lt heps)]
  nlinarith [sq_nonneg (u 1), sq_nonneg (u 2), sq_nonneg (u 3)]

/-- The normalized quaternion has unit length, hence the candidate matrix is
exactly in SU(2). -/
lemma random_SU2_update_isSU2 {eps : ℝ} (u : Fin 4 → ℝ) (hu : u 0 ≠ 0)
    (heps : eps ^ 2 < 1) : IsSU2 (random_SU2_update eps u) := by
  have hpos := rawQuat_normSq_pos eps u hu heps
  have hnorm : quatNorm (rawQuat eps u) ^ 2
      = rawQuat eps u 0 ^ 2 + rawQuat eps u 1 ^ 2 + rawQuat eps u 2 ^ 2 + rawQuat eps u 3 ^ 2 :=
    Real.sq_sqrt (by linarith)
  have hne : quatNorm (rawQuat eps u) ≠ 0 := by
    intro hz
    rw [hz] at hnorm
    nlinarith
  apply IsSU2_quatMat
  simp only [normQuat, div_pow]
  rw [div_add_div_same, div_add_div_same, div_add_div_same, hnorm, div_self (by nlinarith)]

/-- Squared norm of the vector (Pauli) part of an SU(2) matrix read off its
entries: for `quatMat a0 a1 a2 a3` this is `a1^2 + a2^2 + a3^2 = sin^2` of
half the rotation angle. -/
def vecNormSq (U : M2) : ℝ := (U 0 0).im ^ 2 + (U 0 1).re ^ 2 + (U 0 1).im ^ 2

lemma vecNormSq_quatMat (a0 a1 a2 a3 : ℝ) :
    vecNormSq (quatMat a0 a1 a2 a3) = a1 ^ 2 + a2 ^ 2 + a3 ^ 2 := by
  simp [vecNormSq, quatMat]
  ring

/-- The rotation angle of an SU(2) matrix `U = cos(θ/2)·I + i sin(θ/2)·(n·σ)`:
`θ = 2 · arcsin ‖vector part‖`. -/
noncomputable def rotAngle (U : M2) : ℝ := 2 * Real.arcsin (Real.sqrt (vecNormSq U))

/-- The vector part of the candidate update has squared norm at most `eps^2`. -/
lemma vecNormSq_update_le {eps : ℝ} (u : Fin 4 → ℝ) (hu : u 0 ≠ 0)
    (heps0 : 0 ≤ eps) (heps : eps < 1) (hrange : ∀ i, |u i| ≤ 1 / 2) :
    vecNormSq (random_SU2_update eps u) ≤ eps ^ 2 := by
  have heps2 : eps ^ 2 < 1 := by nlinarith
  have hpos := rawQuat_normSq_pos eps u hu heps2
  have hnorm : quatNorm (rawQuat eps u) ^ 2
      = rawQuat eps u 0 ^ 2 + rawQuat eps u 1 ^ 2 + rawQuat eps u 2 ^ 2 + rawQuat eps u 3 ^ 2 :=
    Real.sq_sqrt (by linarith)
  have hN2pos : 0 < quatNorm (rawQuat eps u) ^ 2 := by rw [hnorm]; exact hpos
  have hsum : rawQuat eps u 0 ^ 2 + rawQuat eps u 1 ^ 2 + rawQuat eps u 2 ^ 2
      + rawQuat eps u 3 ^ 2 = (1 - eps ^ 2) + eps ^ 2 * (u 1 ^ 2 + u 2 ^ 2 + u 3 ^ 2) :=
    rawQuat_normSq eps u hu (le_of_lt heps2)
  have hvec : ∀ i : Fin 4, i ≠ 0 → rawQuat eps u i ^ 2 = eps ^ 2 * u i ^ 2 := by
    intro i hi
    rw [rawQuat, if_neg hi, mul_pow]
  rw [random_SU2_update, vecNormSq_quatMat]
  simp only [normQuat, div_pow]
  rw [div_add_div_same, div_add_div_same]
  rw [div_le_iff₀ hN2pos]
  rw [hvec 1 (by decide), hvec 2 (by decide), hvec 3 (by decide), hnorm, hsum]
  have hs1 : u 1 ^ 2 + u 2 ^ 2 + u 3 ^ 2 ≤ 3 / 4 := by
    have h1 := abs_le.mp (hrange 1)
    have h2 := abs_le.mp (hrange 2)
    have h3 := abs_le.mp (hrange 3)
    nlinarith [h1.1, h1.2, h2.1, h2.2, h3.1, h3.2]
  have hA : (0 : ℝ) ≤ 1 - (u 1 ^ 2 + u 2 ^ 2 + u 3 ^ 2) := by linarith
  have hB : (0 : ℝ) ≤ 1 - eps ^ 2 := by nlinarith
  nlinarith [mul_nonneg (mul_nonneg (sq_nonneg eps) hA) hB]

/-- Claim C8 (amended): for every `eps` in `(0,1)` and every in-range random
draw (components in `[-1/2, 1/2]`, nonzero leading component), the candidate
matrix produced by `random_SU2_updates` is exactly in SU(2) and the sine of
half its rotation angle is at most `eps`; equivalently the rotation angle is
at most `2·arcsin eps` (not `eps` itself, which the angle can exceed). -/
theorem claim_C8_theorem {eps : ℝ} (u : Fin 4 → ℝ) (hu : u 0 ≠ 0)
    (heps0 : 0 < eps) (heps : eps < 1) (hrange : ∀ i, |u i| ≤ 1 / 2) :
    IsSU2 (random_SU2_update eps u) ∧
      Real.sqrt (vecNormSq (random_SU2_update eps u)) ≤ eps ∧
      rotAngle (random_SU2_update eps u) ≤ 2 * Real.arcsin eps := by
  have hSU2 := random_SU2_update_isSU2 u hu (by nlinarith)
  have hv := vecNormSq_update_le u hu (le_of_lt heps0) heps hrange
  have hsqrt : Real.sqrt (vecNormSq (random_SU2_update eps u)) ≤ eps := by
    have := Real.sqrt_le_sqrt hv
    rwa [Real.sqrt_sq (le_of_lt heps0)] at this
  refine ⟨hSU2, hsqrt, ?_⟩
  rw [rotAngle]
  have harc : Real.arcsin (Real.sqrt (vecNormSq (random_SU2_update eps u)))
      ≤ Real.arcsin eps := Real.monotone_arcsin hsqrt
  linarith

/-- Witness for the amended theorem of claim C8 at `eps = 1/2` and the all-`1/2`
draw. -/
theorem claim_C8_witness :
    IsSU2 (random_SU2_update (1 / 2) (fun _ => 1 / 2)) ∧
      Real.sqrt (vecNormSq (random_SU2_update (1 / 2) (fun _ => 1 / 2))) ≤ 1 / 2 ∧
      rotAngle (random_SU2_update (1 / 2) (fun _ => 1 / 2)) ≤ 2 * Real.arcsin (1 / 2) :=
  claim_C8_theorem (fun _ => 1 / 2) (by norm_num) (by norm_num) (by norm_num)
    (fun i => by rw [abs_of_nonneg] <;> norm_num)

lemma self_le_arcsin {x : ℝ} (h0 : 0 ≤ x) (h1 : x ≤ 1) : x ≤ Real.arcsin x := by
  have hs : Real.sin (Real.arcsin x) = x := Real.sin_arcsin (by linarith) h1
  have hle := Real.sin_le (Real.arcsin_nonneg.mpr h0)
  linarith

/-- Concrete computation: with `eps = 1/2` and all four draws equal to `1/2`,
the candidate quaternion normalizes to vector-part squared norm `1/5`. -/
lemma vecNormSq_cex : vecNormSq (random_SU2_update (1 / 2) (fun _ => 1 / 2)) = 1 / 5 := by
  have h34 : rawQuat (1 / 2) (fun _ => 1 / 2) 0 = Real.sqrt (3 / 4) := by
    rw [rawQuat, if_pos rfl, sgn, if_pos (by norm_num : (0 : ℝ) < 1 / 2), one_mul]
    norm_num
  have hi : ∀ i : Fin 4, i ≠ 0 → rawQuat (1 / 2) (fun _ => 1 / 2) i = 1 / 4 := by
    intro i hne
    rw [rawQuat, if_neg hne]
    norm_num
  have hN : quatNorm (rawQuat (1 / 2) (fun _ => 1 / 2)) = Real.sqrt (15 / 16) := by
    rw [quatNorm, h34, hi 1 (by decide), hi 2 (by decide), hi 3 (by decide),
      Real.sq_sqrt (by norm_num : (0 : ℝ) ≤ 3 / 4)]
    norm_num
  rw [random_SU2_update, vecNormSq_quatMat]
  simp only [normQuat]
  rw [hN, hi 1 (by decide), hi 2 (by decide), hi 3 (by decide)]
  simp only [div_pow]
  rw [Real.sq_sqrt (by norm_num : (0 : ℝ) ≤ 15 / 16)]
  norm_num

/-- Claim C8 counterexample: at step size `eps = 1/2` (inside `(0,1)`) and
the in-range draw with all four components equal to `1/2`, the
rotation angle is `2·arcsin(√(1/5)) ≥ 2·√(1/5) > 1/2 = eps`, refuting the
claimed bound angle `≤ eps`. -/
theorem claim_C8_counterexample :
    (0 : ℝ) < 1 / 2 ∧ (1 / 2 : ℝ) < 1 ∧
      ¬ rotAngle (random_SU2_update (1 / 2) (fun _ => 1 / 2)) ≤ (1 / 2 : ℝ) := by
  refine ⟨by norm_num, by norm_num, ?_⟩
  rw [not_le, rotAngle, vecNormSq_cex]
  have h1 : Real.sqrt (1 / 5) ≤ Real.arcsin (Real.sqrt (1 / 5)) := by
    apply self_le_arcsin (Real.sqrt_nonneg _)
    rw [show (1 : ℝ) = Real.sqrt 1 from Real.sqrt_one.symm]
    exact Real.sqrt_le_sqrt (by norm_num)
  have h2 : (1 / 4 : ℝ) < Real.sqrt (1 / 5) := by
    rw [show (1 / 4 : ℝ) = Real.sqrt ((1 / 4) ^ 2) from Real.sqrt_sq (by norm_num) |>.symm]
    exact Real.sqrt_lt_sqrt (by positivity) (by norm_num)
  linarith

/-- A site of the periodic cubic lattice with side `n`: one coordinate per
axis. -/
abbrev Site (n : ℕ) := Fin 3 → Fin n

/-- Forward shifted site along axis `a` with periodic wraparound: reading a
`np.roll(A, -1, axis=a)` array at `x` reads `A` at `x + e_a`. -/
def shiftF {n : ℕ} [NeZero n] (s : Site n) (a : Fin 3) : Site n :=
  Function.update s a (s a + 1)

/-- Backward shifted site along axis `a`: `np.roll(A, 1, axis=a)` at `x`
reads `A` at `x - e_a`. -/
def shiftB {n : ℕ} [NeZero n] (s : Site n) (a : Fin 3) : Site n :=
  Function.update s a (s a - 1)

/-- A gauge field: one 2x2 complex link matrix per (site, direction), the
`(L, L, L, 3, 2, 2)` array of the simulation script. -/
def GaugeField (n : ℕ) := Site n → Fin 3 → M2

/-- Embedding of `get_cold_start`: every link is the identity matrix. -/
noncomputable def get_cold_start (n : ℕ) : GaugeField n := fun _ _ => 1

/-- Embedding of `compute_staples_3d`: for each `nu ≠ mu` (taken in the
loop order of the source) accumulate the forward staple
`U_nu(x) · U_mu(x+e_nu) · U_nu(x+e_mu)†` and the backward staple
`U_nu(x-e_nu)† · U_mu(x-e_nu) · U_nu(x-e_nu+e_mu)`. -/
noncomputable def compute_staples_3d {n : ℕ} [NeZero n] (U : GaugeField n) (mu : Fin 3)
    (s : Site n) : M2 :=
  (([0, 1, 2] : List (Fin 3)).filter (fun nu => nu != mu)).foldl
    (fun acc nu =>
      acc + (U s nu * U (shiftF s nu) mu * (U (shiftF s mu) nu)ᴴ)
          + ((U (shiftB s nu) nu)ᴴ * U (shiftB s nu) mu * U (shiftF (shiftB s nu) mu) nu))
    0

/-- The local action change of the Metropolis step:
`dS = -(beta/2) · Re Tr[(U_new - U_old) · Staple†]`. -/
noncomputable def deltaS (beta : ℝ) (oldL newL staple : M2) : ℝ :=
  -(beta / 2) * ((newL - oldL) * stapleᴴ).trace.re

/-- One direction pass of `update_metropolis`.  All sites of direction `mu`
are decided simultaneously from staples of the current field `U` (the numpy
code masks the whole `U[..., mu]` slice at once); a link is replaced by the
proposal `Uprime s mu` when the uniform draw satisfies `r < exp(-dS)`. -/
noncomputable def metroStep {n : ℕ} [NeZero n] (beta : ℝ) (Uprime : GaugeField n)
    (rdraw : Fin 3 → Site n → ℝ) (U : GaugeField n) (mu : Fin 3) : GaugeField n :=
  fun s d =>
    if d = mu ∧
        rdraw mu s <
          Real.exp (-(deltaS beta (U s mu) (Uprime s mu) (compute_staples_3d U mu s)))
    then Uprime s mu
    else U s d

/-- Embedding of `random_SU2_updates` on the whole lattice: one candidate
matrix per (site, direction), from the four uniform draws of that link. -/
noncomputable def random_SU2_updates {n : ℕ} (eps : ℝ)
    (udraw : Site n → Fin 3 → Fin 4 → ℝ) : Site n → Fin 3 → M2 :=
  fun s d => random_SU2_update eps (udraw s d)

/-- Embedding of `update_metropolis`: draw all proposals once from the field
at sweep start (`U_prime = R @ U` before the loop), then run the direction
loop `for mu in range(3)` where each pass recomputes staples from the
current (partially updated) field and overwrites accepted links in place. -/
noncomputable def update_metropolis {n : ℕ} [NeZero n] (beta eps : ℝ)
    (udraw : Site n → Fin 3 → Fin 4 → ℝ) (rdraw : Fin 3 → Site n → ℝ)
    (U : GaugeField n) : GaugeField n :=
  List.foldl (metroStep beta (fun s d => random_SU2_updates eps udraw s d * U s d) rdraw) U
    ([0, 1, 2] : List (Fin 3))

/-- The state of the field when the direction-`mu` pass of the sweep starts:
the fold over the directions strictly before `mu`. -/
noncomputable def fieldBeforeDir {n : ℕ} [NeZero n] (beta eps : ℝ)
    (udraw : Site n → Fin 3 → Fin 4 → ℝ) (rdraw : Fin 3 → Site n → ℝ)
    (U : GaugeField n) (mu : Fin 3) : GaugeField n :=
  List.foldl (metroStep beta (fun s d => random_SU2_updates eps udraw s d * U s d) rdraw) U
    (([0, 1, 2] : List (Fin 3)).take mu.val)

/-- The staple matrix actually entering the `dS` evaluation of the
direction-`mu` pass at site `s`, i.e. the staples of the field as it stands
when that pass begins. -/
noncomputable def stapleUsed {n : ℕ} [NeZero n] (beta eps : ℝ)
    (udraw : Site n → Fin 3 → Fin 4 → ℝ) (rdraw : Fin 3 → Site n → ℝ)
    (U : GaugeField n) (mu : Fin 3) (s : Site n) : M2 :=
  compute_staples_3d (fieldBeforeDir beta eps udraw rdraw U mu) mu s

lemma metroStep_cases {n : ℕ} [NeZero n] (beta : ℝ) (Up : GaugeField n)
    (rdraw : Fin 3 → Site n → ℝ) (V : GaugeField n) (mu : Fin 3) (s : Site n) (d : Fin 3) :
    metroStep beta Up rdraw V mu s d = V s d ∨ metroStep beta Up rdraw V mu s d = Up s d := by
  rw [metroStep]
  by_cases h : d = mu ∧
      rdraw mu s <
        Real.exp (-(deltaS beta (V s mu) (Up s mu) (compute_staples_3d V mu s)))
  · right
    rw [if_pos h, h.1]
  · left
    rw [if_neg h]

lemma metro_foldl_mem {n : ℕ} [NeZero n] (beta : ℝ) (U Up : GaugeField n)
    (rdraw : Fin 3 → Site n → ℝ) :
    ∀ (l : List (Fin 3)) (V : GaugeField n),
      (∀ s d, V s d = U s d ∨ V s d = Up s d) →
      ∀ s d, (List.foldl (metroStep beta Up rdraw) V l) s d = U s d ∨
        (List.foldl (metroStep beta Up rdraw) V l) s d = Up s d := by
  intro l
  induction l with
  | nil =>
    intro V hV
    simpa using hV
  | cons mu l ih =>
    intro V hV
    rw [List.foldl_cons]
    apply ih
    intro s d
    rcases metroStep_cases beta Up rdraw V mu s d with h | h
    · rw [h]
      exact hV s d
    · rw [h]
      right
      rfl

/-- Claim C2: if every link of the field is in SU(2), then after one full
`update_metropolis` sweep every link is still in SU(2), for every choice of
random draws (excluding only the degenerate draw whose quaternion cannot be
normalized: leading component exactly zero would make `np.sign` return 0).
Each link is either left unchanged or replaced by `R · U` with `R` the
unit-quaternion SU(2) proposal of that link. -/
theorem claim_C2_theorem {n : ℕ} [NeZero n] (beta eps : ℝ)
    (udraw : Site n → Fin 3 → Fin 4 → ℝ) (rdraw : Fin 3 → Site n → ℝ) (U : GaugeField n)
    (heps0 : 0 ≤ eps) (heps1 : eps < 1)
    (hdraw : ∀ s d, udraw s d 0 ≠ 0)
    (hU : ∀ s d, IsSU2 (U s d)) :
    ∀ (s : Site n) (d : Fin 3),
      (update_metropolis beta eps udraw rdraw U s d = U s d ∨
        update_metropolis beta eps udraw rdraw U s d
          = random_SU2_updates eps udraw s d * U s d) ∧
      IsSU2 (update_metropolis beta eps udraw rdraw U s d) := by
  intro s d
  have heps2 : eps ^ 2 < 1 := by nlinarith
  have hmem := metro_foldl_mem beta U
    (fun s d => random_SU2_updates eps udraw s d * U s d) rdraw [0, 1, 2] U
    (fun s d => Or.inl rfl) s d
  rw [update_metropolis]
  refine ⟨hmem, ?_⟩
  rcases hmem with h | h
  · rw [h]
    exact hU s d
  · rw [h]
    exact (random_SU2_update_isSU2 (udraw s d) (hdraw s d) heps2).mul (hU s d)

/-- The single site of the trivial lattice with side 1. -/
def siteZero : Site 1 := fun _ => 0

/-- Witness for the theorem of claim C2: the cold-start field at the configured
configured `beta = 6`, `eps = 0.3`, with all uniform draws `1/2`. -/
theorem claim_C2_witness :
    (update_metropolis 6 (3 / 10) (fun _ _ _ => 1 / 2) (fun _ _ => 1 / 2)
        (get_cold_start 1) siteZero 0 = get_cold_start 1 siteZero 0 ∨
      update_metropolis 6 (3 / 10) (fun _ _ _ => 1 / 2) (fun _ _ => 1 / 2)
        (get_cold_start 1) siteZero 0
        = random_SU2_updates (3 / 10) (fun _ _ _ => 1 / 2) siteZero 0
            * get_cold_start 1 siteZero 0) ∧
    IsSU2 (update_metropolis 6 (3 / 10) (fun _ _ _ => 1 / 2) (fun _ _ => 1 / 2)
      (get_cold_start 1) siteZero 0) :=
  claim_C2_theorem 6 (3 / 10) (fun _ _ _ => 1 / 2) (fun _ _ => 1 / 2) (get_cold_start 1)
    (by norm_num) (by norm_num) (fun s d => by norm_num) (fun s d => IsSU2_one) siteZero 0

lemma metroStep_other {n : ℕ} [NeZero n] (beta : ℝ) (Up : GaugeField n)
    (rdraw : Fin 3 → Site n → ℝ) (V : GaugeField n) (mu : Fin 3) (s : Site n) (d : Fin 3)
    (hd : d ≠ mu) : metroStep beta Up rdraw V mu s d = V s d := by
  rw [metroStep]
  exact if_neg (fun h => hd h.1)

lemma metro_foldl_untouched {n : ℕ} [NeZero n] (beta : ℝ) (Up : GaugeField n)
    (rdraw : Fin 3 → Site n → ℝ) (m : ℕ) :
    ∀ l : List (Fin 3), (∀ x ∈ l, x.val < m) →
      ∀ (V : GaugeField n) (s : Site n) (d : Fin 3), m ≤ d.val →
        (List.foldl (metroStep beta Up rdraw) V l) s d = V s d := by
  intro l
  induction l with
  | nil =>
    intro _ V s d _
    rfl
  | cons mu l ih =>
    intro hl V s d hd
    rw [List.foldl_cons,
      ih (fun x hx => hl x (List.mem_cons_of_mem _ hx)) _ s d hd]
    apply metroStep_other
    intro hdmu
    have := hl mu (List.mem_cons_self _ _)
    rw [hdmu] at hd
    omega

/-- Claim C4 (amended): within one sweep the staples of direction `mu` are
computed from the field as it stands when that direction pass begins, namely
`fieldBeforeDir`: its links in directions ≥ mu are still the pre-sweep links,
while its links in directions < mu may already equal the accepted proposal
`R · U` from this very sweep.  (For `mu = 0` the staples do agree with the
pre-sweep staples, since no direction precedes it.)  So the staples are not
computed once from the pre-sweep field. -/
theorem claim_C4_theorem {n : ℕ} [NeZero n] (beta eps : ℝ)
    (udraw : Site n → Fin 3 → Fin 4 → ℝ) (rdraw : Fin 3 → Site n → ℝ)
    (U : GaugeField n) (mu : Fin 3) :
    (∀ (s : Site n) (d : Fin 3), mu.val ≤ d.val →
        fieldBeforeDir beta eps udraw rdraw U mu s d = U s d) ∧
    (∀ (s : Site n) (d : Fin 3),
        fieldBeforeDir beta eps udraw rdraw U mu s d = U s d ∨
        fieldBeforeDir beta eps udraw rdraw U mu s d
          = random_SU2_updates eps udraw s d * U s d) ∧
    (∀ s : Site n, stapleUsed beta eps udraw rdraw U 0 s = compute_staples_3d U 0 s) := by
  refine ⟨?_, ?_, ?_⟩
  · intro s d hd
    rw [fieldBeforeDir]
    apply metro_foldl_untouched beta _ rdraw mu.val _ ?_ U s d hd
    intro x hx
    fin_cases mu <;> simp_all <;> omega
  · intro s d
    exact metro_foldl_mem beta U _ rdraw _ U (fun _ _ => Or.inl rfl) s d
  · intro s
    rfl

/-- Witness for the amended theorem of claim C4: the trivial one-site lattice at
direction `mu = 1` with the cold-start field and constant draws. -/
theorem claim_C4_witness :
    (fieldBeforeDir 0 (1 / 2) (fun _ _ _ => 1 / 2) (fun _ _ => 1 / 2) (get_cold_start 1) 1
        siteZero 1 = get_cold_start 1 siteZero 1) ∧
    (fieldBeforeDir 0 (1 / 2) (fun _ _ _ => 1 / 2) (fun _ _ => 1 / 2) (get_cold_start 1) 1
        siteZero 0 = get_cold_start 1 siteZero 0 ∨
      fieldBeforeDir 0 (1 / 2) (fun _ _ _ => 1 / 2) (fun _ _ => 1 / 2) (get_cold_start 1) 1
        siteZero 0
        = random_SU2_updates (1 / 2) (fun _ _ _ => 1 / 2) siteZero 0
            * get_cold_start 1 siteZero 0) ∧
    stapleUsed 0 (1 / 2) (fun _ _ _ => 1 / 2) (fun _ _ => 1 / 2) (get_cold_start 1) 0 siteZero
      = compute_staples_3d (get_cold_start 1) 0 siteZero := by
  obtain ⟨h1, h2, h3⟩ := claim_C4_theorem (n := 1) 0 (1 / 2) (fun _ _ _ => 1 / 2)
    (fun _ _ => 1 / 2) (get_cold_start 1) 1
  exact ⟨h1 siteZero 1 (by norm_num), h2 siteZero 0, h3 siteZero⟩

lemma quatMat_mul (a0 a1 a2 a3 b0 b1 b2 b3 : ℝ) :
    quatMat a0 a1 a2 a3 * quatMat b0 b1 b2 b3
      = quatMat (a0 * b0 - a1 * b1 - a2 * b2 - a3 * b3)
          (a0 * b1 + a1 * b0 + a3 * b2 - a2 * b3)
          (a0 * b2 + a2 * b0 + a1 * b3 - a3 * b1)
          (a0 * b3 + a3 * b0 + a2 * b1 - a1 * b2) := by
  ext i j
  fin_cases i <;> fin_cases j <;>
    · simp [quatMat, Matrix.mul_apply, Fin.sum_univ_two, Complex.ext_iff, Complex.add_re,
        Complex.add_im, Complex.sub_re, Complex.sub_im, Complex.mul_re, Complex.mul_im]
      constructor <;> ring

lemma quatMat_add (a0 a1 a2 a3 b0 b1 b2 b3 : ℝ) :
    quatMat a0 a1 a2 a3 + quatMat b0 b1 b2 b3
      = quatMat (a0 + b0) (a1 + b1) (a2 + b2) (a3 + b3) := by
  ext i j
  fin_cases i <;> fin_cases j <;>
    · simp [quatMat, Matrix.add_apply, Complex.ext_iff, Complex.add_re, Complex.add_im,
        Complex.sub_re, Complex.sub_im, Complex.mul_re, Complex.mul_im]
      try constructor
      all_goals ring

lemma quatMat_congr {x0 x1 x2 x3 y0 y1 y2 y3 : ℝ} (h0 : x0 = y0) (h1 : x1 = y1)
    (h2 : x2 = y2) (h3 : x3 = y3) : quatMat x0 x1 x2 x3 = quatMat y0 y1 y2 y3 := by
  rw [h0, h1, h2, h3]

lemma quatMat_one : (1 : M2) = quatMat 1 0 0 0 := by
  ext i j
  fin_cases i <;> fin_cases j <;>
    simp [quatMat, Matrix.one_apply, Complex.ext_iff]

lemma quatMat_01_re (c0 c1 c2 c3 : ℝ) : ((quatMat c0 c1 c2 c3) 0 1).re = c2 := by
  simp [quatMat]

/-- The fixed spatial plaquette-style link used in the claim C4
counterexample: the SU(2) element with quaternion `(0, 0, 1, 0)`. -/
noncomputable def Wmat : M2 := quatMat 0 0 1 0

/-- Counterexample initial field on the one-site lattice: direction 1 holds
`Wmat`, directions 0 and 2 hold the identity. -/
noncomputable def Ucex : GaugeField 1 := fun _ d => if d = 1 then Wmat else 1

/-- The single per-link draw used in the claim C4 counterexample. -/
noncomputable def ucex : Fin 4 → ℝ := fun i => if (i : ℕ) < 2 then 1 / 2 else 0

/-- Uniform draws for the counterexample: the same quadruple at every link. -/
noncomputable def udrawCex : Site 1 → Fin 3 → Fin 4 → ℝ := fun _ _ => ucex

/-- Acceptance draws for the counterexample: `1/2` everywhere, so at
`beta = 0` (where `dS = 0` and `exp(-dS) = 1`) every proposal is accepted. -/
noncomputable def rdrawCex : Fin 3 → Site 1 → ℝ := fun _ _ => 1 / 2

/-- The counterexample proposal matrix at `eps = 4/5`. -/
noncomputable def Rcex : M2 := random_SU2_update (4 / 5) ucex

/-- Normalization constant of the counterexample quaternion. -/
noncomputable def Ncex : ℝ := Real.sqrt (13 / 25)

lemma raw_cex : rawQuat (4 / 5) ucex 0 = 3 / 5 ∧ rawQuat (4 / 5) ucex 1 = 2 / 5 ∧
    rawQuat (4 / 5) ucex 2 = 0 ∧ rawQuat (4 / 5) ucex 3 = 0 := by
  have h0 : ucex 0 = 1 / 2 := rfl
  have h1 : ucex 1 = 1 / 2 := rfl
  have h2 : ucex 2 = 0 := rfl
  have h3 : ucex 3 = 0 := rfl
  refine ⟨?_, ?_, ?_, ?_⟩
  · rw [rawQuat, if_pos rfl, h0, sgn, if_pos (by norm_num : (0 : ℝ) < 1 / 2), one_mul,
      show (1 : ℝ) - (4 / 5) ^ 2 = (3 / 5) ^ 2 by norm_num,
      Real.sqrt_sq (by norm_num : (0 : ℝ) ≤ 3 / 5)]
  · rw [rawQuat, if_neg (by decide), h1]
    norm_num
  · rw [rawQuat, if_neg (by decide), h2]
    norm_num
  · rw [rawQuat, if_neg (by decide), h3]
    norm_num

lemma quatNorm_cex : quatNorm (rawQuat (4 / 5) ucex) = Ncex := by
  obtain ⟨h0, h1, h2, h3⟩ := raw_cex
  rw [quatNorm, h0, h1, h2, h3, Ncex]
  norm_num

lemma Ncex_sq : Ncex ^ 2 = 13 / 25 :=
  Real.sq_sqrt (by norm_num)

lemma Ncex_pos : 0 < Ncex :=
  Real.sqrt_pos.mpr (by norm_num)

lemma Rcex_eval : Rcex = quatMat (3 / 5 / Ncex) (2 / 5 / Ncex) 0 0 := by
  obtain ⟨h0, h1, h2, h3⟩ := raw_cex
  rw [Rcex, random_SU2_update]
  simp only [normQuat]
  rw [quatNorm_cex, h0, h1, h2, h3, zero_div]

/-- A gauge field on the one-site lattice that is constant in the site):
link `A` in direction 0, `B` in direction 1, `C` in direction 2. -/
noncomputable def constField (A B C : M2) : GaugeField 1 :=
  fun _ d => if d = 0 then A else if d = 1 then B else C

lemma Ucex_eq_const : Ucex = constField 1 Wmat 1 := by
  funext s d
  fin_cases d <;> rfl

lemma staples_dir1_const (A B C : M2) :
    compute_staples_3d (constField A B C) 1 siteZero
      = 0 + (A * B * Aᴴ) + (Aᴴ * B * A) + (C * B * Cᴴ) + (Cᴴ * B * C) := rfl

lemma fieldBefore1_eval :
    fieldBeforeDir 0 (4 / 5) udrawCex rdrawCex Ucex 1 = constField Rcex Wmat 1 := by
  funext s d
  have htake : (([0, 1, 2] : List (Fin 3)).take (1 : Fin 3).val) = [0] := rfl
  rw [fieldBeforeDir, htake, List.foldl_cons, List.foldl_nil, metroStep]
  have hcond : rdrawCex 0 s <
      Real.exp (-(deltaS 0 (Ucex s 0)
        ((fun s d => random_SU2_updates (4 / 5) udrawCex s d * Ucex s d) s 0)
        (compute_staples_3d Ucex 0 s))) := by
    rw [deltaS]
    norm_num [rdrawCex]
  by_cases hd : d = 0
  · subst hd
    rw [if_pos ⟨rfl, hcond⟩]
    show random_SU2_updates (4 / 5) udrawCex s 0 * Ucex s 0 = constField Rcex Wmat 1 s 0
    have hU0 : Ucex s 0 = 1 := rfl
    rw [hU0, mul_one]
    rfl
  · rw [if_neg (fun h => hd h.1)]
    fin_cases d
    · exact absurd rfl hd
    · rfl
    · rfl

/-- Claim C4 counterexample: on the one-site lattice with `beta = 0` (so the
acceptance draw `1/2 < exp(0) = 1` accepts every proposal), `eps = 4/5` and
the explicit draws above, the staple matrix entering the direction-1 `dS`
differs from the staple computed from the pre-sweep field: the direction-0
link was already replaced by its accepted proposal during the same sweep. -/
theorem claim_C4_counterexample :
    stapleUsed 0 (4 / 5) udrawCex rdrawCex Ucex 1 siteZero
      ≠ compute_staples_3d Ucex 1 siteZero := by
  have hused : stapleUsed 0 (4 / 5) udrawCex rdrawCex Ucex 1 siteZero
      = quatMat 0 0 (2 * ((3 / 5 / Ncex) ^ 2 - (2 / 5 / Ncex) ^ 2) + 2) 0 := by
    rw [stapleUsed, fieldBefore1_eval, staples_dir1_const, Rcex_eval, Wmat, quatMat_one]
    simp only [conjTranspose_quatMat, quatMat_mul, quatMat_add, zero_add]
    apply quatMat_congr <;> ring
  have hbefore : compute_staples_3d Ucex 1 siteZero = quatMat 0 0 4 0 := by
    rw [Ucex_eq_const, staples_dir1_const, Wmat, quatMat_one]
    simp only [conjTranspose_quatMat, quatMat_mul, quatMat_add, zero_add]
    apply quatMat_congr <;> ring
  rw [hused, hbefore]
  intro h
  have h01 : ((quatMat 0 0 (2 * ((3 / 5 / Ncex) ^ 2 - (2 / 5 / Ncex) ^ 2) + 2) 0) 0 1).re
      = ((quatMat 0 0 (4 : ℝ) 0) 0 1).re := by rw [h]
  rw [quatMat_01_re, quatMat_01_re] at h01
  have hN := Ncex_sq
  have hN0 : Ncex ≠ 0 := ne_of_gt Ncex_pos
  field_simp at h01
  nlinarith [h01, hN]

/-- Spatial staple sum of the APE smearing step: same staple shape as
`compute_staples_3d` but with `nu` running over the spatial directions
`range(2)` only (skipping `nu = mu`). -/
noncomputable def spatialStaple {n : ℕ} [NeZero n] (U : GaugeField n) (mu : Fin 3)
    (s : Site n) : M2 :=
  (([0, 1] : List (Fin 3)).filter (fun nu => nu != mu)).foldl
    (fun acc nu =>
      acc + (U s nu * U (shiftF s nu) mu * (U (shiftF s mu) nu)ᴴ)
          + ((U (shiftB s nu) nu)ᴴ * U (shiftB s nu) mu * U (shiftF (shiftB s nu) mu) nu))
    0

/-- One APE smearing step of `spatial_ape_smear`: each spatial link (`mu` in
`range(2)`) is blended as `(1 - alpha) · U + (alpha/2) · staple` from the
snapshot `U_curr` taken at the start of the step and re-projected to SU(2);
the time-like direction 2 is left untouched. -/
noncomputable def apeStep {n : ℕ} [NeZero n] (alpha : ℝ) (U : GaugeField n) : GaugeField n :=
  fun s d =>
    if d = 0 ∨ d = 1
    then project_SU2 ((1 - alpha) • U s d + (alpha / 2) • spatialStaple U d s)
    else U s d

/-- Embedding of `spatial_ape_smear`: `n_steps` iterations of the APE step,
acting on an explicit copy of the field passed by the caller. -/
noncomputable def spatial_ape_smear {n : ℕ} [NeZero n] (U_in : GaugeField n) (alpha : ℝ)
    (n_steps : ℕ) : GaugeField n :=
  (apeStep alpha)^[n_steps] U_in

/-- Claim C10: `spatial_ape_smear` never mutates its input (in the embedding
it is a pure function of the copied input field, mirroring `U_sm =
U_in.copy()`), and in the returned field every direction-2 (time-like) link
equals the corresponding link of the input, for every `alpha` and step
count — only direction-0 and direction-1 links are rewritten. -/
theorem claim_C10_theorem {n : ℕ} [NeZero n] (U : GaugeField n) (alpha : ℝ) (k : ℕ)
    (s : Site n) : spatial_ape_smear U alpha k s 2 = U s 2 := by
  induction k with
  | zero => rfl
  | succ m ih =>
    rw [spatial_ape_smear, Function.iterate_succ_apply']
    show apeStep alpha ((apeStep alpha)^[m] U) s 2 = U s 2
    rw [apeStep]
    rw [if_neg (by decide : ¬((2 : Fin 3) = 0 ∨ (2 : Fin 3) = 1))]
    exact ih

/-- Witness for claim C10 at the cold-start field with three smearing
steps. -/
theorem claim_C10_witness :
    spatial_ape_smear (get_cold_start 1) (1 / 2) 3 siteZero 2
      = get_cold_start 1 siteZero 2 :=
  claim_C10_theorem (get_cold_start 1) (1 / 2) 3 siteZero

/-- Embedding of the correlator folding loop of the analysis script:
`for t in range(1, Nt//2 + 1): C_matrix[t] = 0.5 * (C_matrix[t] + C_matrix[Nt - t])`,
acting on the array of `n_ops x n_ops` real correlator matrices. -/
noncomputable def foldCorr (Nt k : ℕ) (C : ℕ → Matrix (Fin k) (Fin k) ℝ) :
    ℕ → Matrix (Fin k) (Fin k) ℝ :=
  (List.range' 1 (Nt / 2)).foldl
    (fun A t => Function.update A t ((1 / 2 : ℝ) • (A t + A (Nt - t)))) C

/-- Claim C5 (amended): the folding step leaves a time-reflection-symmetric
correlator sequence (`C (Nt - t) = C t`) unchanged.  An already-folded
sequence is in general not symmetric — the indices above `Nt/2` keep their
pre-fold values — so folding twice is not the same as folding once (see the
counterexample). -/
theorem claim_C5_theorem (Nt k : ℕ) (C : ℕ → Matrix (Fin k) (Fin k) ℝ)
    (hsym : ∀ t, C (Nt - t) = C t) : foldCorr Nt k C = C := by
  rw [foldCorr]
  generalize List.range' 1 (Nt / 2) = l
  induction l with
  | nil => rfl
  | cons t ts ih =>
    rw [List.foldl_cons]
    have hhalf : (1 / 2 : ℝ) • (C t + C t) = C t := by
      rw [← two_smul ℝ (C t), smul_smul]
      norm_num
    have hstep : Function.update C t ((1 / 2 : ℝ) • (C t + C (Nt - t))) = C := by
      rw [hsym t, hhalf, Function.update_eq_self]
    rw [hstep, ih]

/-- Witness for the amended theorem of claim C5: the constant (symmetric)
correlator sequence is left unchanged by the fold. -/
theorem claim_C5_witness :
    foldCorr 4 1 (fun _ => (1 : Matrix (Fin 1) (Fin 1) ℝ)) = fun _ => 1 :=
  claim_C5_theorem 4 1 (fun _ => 1) (fun _ => rfl)

/-- Concrete correlator sequence for the claim C5 counterexample (axis
length 4, one operator): `C 3 = 1`, all other entries `0`. -/
noncomputable def Ccex : ℕ → Matrix (Fin 1) (Fin 1) ℝ := fun t => if t = 3 then 1 else 0

lemma foldCorr4_apply (C : ℕ → Matrix (Fin 1) (Fin 1) ℝ) :
    foldCorr 4 1 C 1 = (1 / 2 : ℝ) • (C 1 + C 3) ∧ foldCorr 4 1 C 3 = C 3 := by
  have hshow : foldCorr 4 1 C = Function.update
      (Function.update C 1 ((1 / 2 : ℝ) • (C 1 + C 3))) 2
      ((1 / 2 : ℝ) • (Function.update C 1 ((1 / 2 : ℝ) • (C 1 + C 3)) 2
        + Function.update C 1 ((1 / 2 : ℝ) • (C 1 + C 3)) 2)) := rfl
  rw [hshow]
  constructor
  · rw [Function.update_noteq (by norm_num), Function.update_same]
  · rw [Function.update_noteq (by norm_num), Function.update_noteq (by norm_num)]

/-- Claim C5 counterexample: with axis length `Nt = 4` and the sequence
`Ccex`, one fold sets `C 1 = 1/2 · (C 1 + C 3) = (1/2) · 1` but leaves
`C 3 = 1` untouched; a second fold then produces `C 1 = (3/4) · 1 ≠ (1/2) · 1`,
so the folding step is not idempotent. -/
theorem claim_C5_counterexample :
    foldCorr 4 1 (foldCorr 4 1 Ccex) 1 ≠ foldCorr 4 1 Ccex 1 := by
  obtain ⟨hB1, hB3⟩ := foldCorr4_apply Ccex
  obtain ⟨hBB1, -⟩ := foldCorr4_apply (foldCorr 4 1 Ccex)
  rw [hBB1, hB1, hB3]
  have hC1 : Ccex 1 = 0 := rfl
  have hC3 : Ccex 3 = 1 := rfl
  rw [hC1, hC3, zero_add]
  intro h
  have h00 := congrArg (fun M : Matrix (Fin 1) (Fin 1) ℝ => M 0 0) h
  simp [Matrix.smul_apply, Matrix.add_apply, Matrix.one_apply] at h00

/-- Embedding of one slice of the GEVP loop.  The external scipy call
`la.eigh(C_matrix[t], C_matrix[t0_gevp], eigvals_only=True)` is modelled as
an `Option`-valued parameter `solve`: `none` stands for a raised exception
(reference matrix not positive definite, singular solve), which the bare
`except` turns into a NaN slice; `some evs` is the returned eigenvalue
list, which the code sorts descending (`np.sort(evals)[::-1]`). -/
noncomputable def eig_slice (solve : ℕ → Option (List ℝ)) (t : ℕ) : Option (List ℝ) :=
  (solve t).map (fun evs => evs.mergeSort (fun a b => decide (b ≤ a)))

/-- The leading eigenvalue sequence `lambda_0 = eig_vals[:, 0]`: the head of
the descending-sorted slice, `none` when the slice was marked NaN. -/
noncomputable def lambda0 (solve : ℕ → Option (List ℝ)) (t : ℕ) : Option ℝ :=
  (eig_slice solve t).map (fun l => l.headD 0)

/-- The mass-fit window `t_data[t_start:t_end]` with the constants of the script
`t_start = 1`, `t_end = 5`: python slicing of `np.arange(Nt//2)`. -/
def fitTimes (Nt : ℕ) : List ℕ := ((List.range (Nt / 2)).take 5).drop 1

/-- The leading-eigenvalue values handed to `curve_fit`: the window slice of
`y_data = lambda_0`, invalid (NaN/`none`) entries included. -/
noncomputable def fitData (solve : ℕ → Option (List ℝ)) (Nt : ℕ) : List (Option ℝ) :=
  (fitTimes Nt).map (lambda0 solve)

/-- Claim C6 (amended): a failed generalized eigensolve at slice `t` marks
exactly that slice invalid (NaN, here `none`) without aborting the pipeline,
but the failed slice is NOT excluded from the mass fit: the fit window is
the fixed index range `[1, 5)` independent of slice validity, and the
invalid value itself is passed to the fit. -/
theorem claim_C6_theorem (solve : ℕ → Option (List ℝ)) (Nt t : ℕ) :
    (lambda0 solve t = none ↔ solve t = none) ∧
    (t ∈ fitTimes Nt → lambda0 solve t ∈ fitData solve Nt) := by
  constructor
  · rcases h : solve t with - | evs <;> simp [lambda0, eig_slice, h]
  · intro ht
    exact List.mem_map_of_mem _ ht

/-- Witness for the amended theorem of claim C6 at a concrete failing solver,
`Nt = 32` (the configured `L`), slice 1. -/
theorem claim_C6_witness :
    (lambda0 (fun t => if t = 2 then none else some [1]) 1 = none ↔
      (fun t : ℕ => if t = 2 then (none : Option (List ℝ)) else some [1]) 1 = none) ∧
    (1 ∈ fitTimes 32 →
      lambda0 (fun t => if t = 2 then none else some [1]) 1
        ∈ fitData (fun t => if t = 2 then none else some [1]) 32) :=
  claim_C6_theorem (fun t => if t = 2 then none else some [1]) 32 1

/-- Claim C6 counterexample: with the solver failing exactly at slice 2, the
slice is marked invalid, yet index 2 lies in the fixed fit window `[1, 5)`
of the `Nt = 32` run and the invalid value is handed to the fit — the failed
slice is not excluded from the subsequent mass fit. -/
theorem claim_C6_counterexample :
    lambda0 (fun t => if t = 2 then none else some [1]) 2 = none ∧
    2 ∈ fitTimes 32 ∧
    (none : Option ℝ) ∈ fitData (fun t => if t = 2 then none else some [1]) 32 := by
  have h2 : lambda0 (fun t => if t = 2 then none else some [1]) 2 = none := rfl
  refine ⟨h2, by decide, ?_⟩
  rw [← h2]
  exact List.mem_map_of_mem _ (by decide)

/-- Embedding of the mass-fit try/except.  The scipy `curve_fit` call for the
cosh model is external and fallible; it is modelled as an `Option`al
parameter triple `popt = (A, m, C)` — `none` when the optimizer raises
(non-convergence, invalid input).  On success `mass_est = popt[1]`; in the
except branch the script prints the failure and sets `mass_est = 0.0`. -/
noncomputable def mass_est (fit : Option (ℝ × ℝ × ℝ)) : ℝ :=
  match fit with
  | some p => p.2.1
  | none => 0

/-- The guard of the final RATIO printout:
`if not np.isnan(sigma_a2) and mass_est > 0`. -/
def ratioShown (sigma : Option ℝ) (mass : ℝ) : Prop := sigma.isSome = true ∧ 0 < mass

/-- Claim C1 counterexample: when the cosh fit fails (raises), the except
branch defaults the mass to `0.0` — the mass gap IS defaulted to zero,
refuting the claim that it is reported as unavailable and never as zero. -/
theorem claim_C1_counterexample : mass_est none = 0 := rfl

/-- Claim C1 (amended): on fit failure the script prints an error message
and defaults `mass_est` to `0.0` rather than to an unavailable marker; the
zero default then suppresses the downstream mass/string-tension RATIO
printout, whose guard requires `mass_est > 0`. -/
theorem claim_C1_theorem (sigma : Option ℝ) :
    mass_est none = 0 ∧ ¬ ratioShown sigma (mass_est none) := by
  refine ⟨rfl, ?_⟩
  rintro ⟨-, hpos⟩
  rw [show mass_est none = 0 from rfl] at hpos
  exact lt_irrefl 0 hpos

/-- Witness for the amended theorem of claim C1 at an available string tension. -/
theorem claim_C1_witness : mass_est none = 0 ∧ ¬ ratioShown (some 1) (mass_est none) :=
  claim_C1_theorem (some 1)

/-- Embedding of the static-potential extraction:
`V_R[r] = ln(wilson_avg[r,3] / wilson_avg[r,4])` wherever both entries are
strictly positive, NaN (`none`) elsewhere.  `W` is the averaged Wilson-loop
array, indexed by the array index `r` in `range(R_max)` (physical separation
`R = r + 1`, per `r_vals = np.arange(1, R_max+1)`) and by `T - 1`. -/
noncomputable def V_R (W : ℕ → ℕ → ℝ) (r : ℕ) : Option ℝ :=
  if 0 < W r 3 ∧ 0 < W r 4 then some (Real.log (W r 3 / W r 4)) else none

/-- The fit mask `np.isfinite(V_R) & (r_vals >= 2)` at array index `r`. -/
def FitMask (W : ℕ → ℕ → ℝ) (r : ℕ) : Prop := (V_R W r).isSome = true ∧ 2 ≤ r + 1

/-- The array indices selected by the mask, in order. -/
noncomputable def usableIdx (Rmax : ℕ) (W : ℕ → ℕ → ℝ) : List ℕ :=
  (List.range Rmax).filter (fun r => decide (FitMask W r))

/-- Closed form of the least-squares slope of the linear `curve_fit`
regression `V(R) = s·R + c` over the masked points. -/
noncomputable def lsqSlope (pts : List (ℝ × ℝ)) : ℝ :=
  ((pts.length : ℝ) * (pts.map (fun p => p.1 * p.2)).sum
      - (pts.map Prod.fst).sum * (pts.map Prod.snd).sum)
    / ((pts.length : ℝ) * (pts.map (fun p => p.1 * p.1)).sum
      - (pts.map Prod.fst).sum * (pts.map Prod.fst).sum)

/-- Embedding of the string-tension computation: `sigma_a2` stays NaN
(`none`) unless at least 2 masked points exist (`np.sum(mask) >= 2`), in
which case the linear fit runs on `(r_vals[mask], V_R[mask])`. -/
noncomputable def sigma_a2 (Rmax : ℕ) (W : ℕ → ℕ → ℝ) : Option ℝ :=
  if 2 ≤ (usableIdx Rmax W).length
  then some (lsqSlope ((usableIdx Rmax W).map
    (fun (r : ℕ) => (((r : ℝ) + 1), (V_R W r).getD 0))))
  else none

/-- Claim C9: the string-tension fit selects exactly the array indices whose
potential value is finite (both Wilson entries strictly positive) and whose
physical separation `R = r + 1` is at least 2; array index 0 (physical
`R = 1`) never enters regardless of finiteness (physical `R = 0` is not even
representable); and with fewer than 2 usable points the string tension is
reported unavailable. -/
theorem claim_C9_theorem (Rmax : ℕ) (W : ℕ → ℕ → ℝ) :
    (∀ r, r ∈ usableIdx Rmax W ↔ (r < Rmax ∧ (V_R W r).isSome = true ∧ 2 ≤ r + 1)) ∧
    0 ∉ usableIdx Rmax W ∧
    ((usableIdx Rmax W).length < 2 → sigma_a2 Rmax W = none) := by
  have hmem : ∀ r, r ∈ usableIdx Rmax W ↔
      (r < Rmax ∧ (V_R W r).isSome = true ∧ 2 ≤ r + 1) := by
    intro r
    simp only [usableIdx, List.mem_filter, List.mem_range, decide_eq_true_eq, FitMask]
  refine ⟨hmem, ?_, ?_⟩
  · intro h0
    have := ((hmem 0).mp h0).2.2
    omega
  · intro hlen
    rw [sigma_a2, if_neg (by omega)]

/-- Witness for the theorem of claim C9 at the all-zero Wilson-loop array
(`R_max = 6` as configured): no usable points, string tension unavailable. -/
theorem claim_C9_witness :
    0 ∉ usableIdx 6 (fun _ _ => 0) ∧ sigma_a2 6 (fun _ _ => 0) = none := by
  obtain ⟨hmem, h0, hlen⟩ := claim_C9_theorem 6 (fun _ _ => 0)
  refine ⟨h0, hlen ?_⟩
  have hempty : usableIdx 6 (fun _ _ => (0 : ℝ)) = [] := by
    rw [usableIdx, List.filter_eq_nil_iff]
    intro r hr
    simp [FitMask, V_R]
  rw [hempty]
  norm_num

end LatticeYM
